import Mathlib

/-!
# A shallow embedding of `bencode.hpp` (decode/encode engine)

This file models the single-header bencode library `src/include/bencode.hpp`:
the recursive-descent decoder `detail::decode_data` / `decode_int_real` /
`decode_str` / `decode_list` / `decode_dict`, the string readers
`detail::str_reader<View>`, and the streaming encoder `encode(...)`.

Modelling conventions:
* the input byte range `[begin, end)` is a `List Char`; every decoding
  function returns the decoded value together with the suffix of the input
  that `begin` points at afterwards;
* `throw std::invalid_argument(...)` is an `Except.error` carrying an `Err`
  constructor that stands for the thrown message;
* C++ 64-bit machine arithmetic is modelled explicitly: unsigned
  `std::size_t` arithmetic reduces modulo `2^64`, and signed `long long`
  overflow (undefined behaviour that the compiled code resolves as
  two's-complement wrap-around, and which the source marks with
  `// TODO: handle overflow`) is modelled by `wrap64`;
* a read through an iterator that is at (or past) `end` and an iterator
  advanced past `end` are out-of-bounds accesses with no defined result;
  they are modelled by the distinguished outcome `Err.ub`;
* the `std::string value(len, 0)` allocation inside the copy-mode string
  readers throws `std::length_error` when `len` exceeds
  `std::string::max_size()`; the forward reader models that bound by the
  64-bit object-size cap `PTRDIFF_MAX = 2^63 - 1` (an upper bound of
  `max_size()` on every 64-bit implementation, and the only regime its
  branch can observably reach), while the sequential reader takes the
  implementation-defined bound as an explicit parameter;
* the recursion of `decode_data` is expressed with explicit fuel; the
  public entry point supplies `2 * length + 2` fuel, which dominates the
  recursion depth, so the fuel guard `Err.outOfFuel` is unreachable there.
-/

set_option maxRecDepth 8192

namespace BencodeHpp

/-- `std::isdigit` applied to a byte of the input. -/
def isDigit (c : Char) : Bool := decide ('0' ≤ c) && decide (c ≤ '9')

/-- The numeric value of a digit byte, as computed by `*begin - '0'`. -/
def charToDigit (c : Char) : Nat := c.toNat - 48

/-- The digit byte for the decimal digit `d` (used when printing). -/
def digitChar (d : Nat) : Char := Char.ofNat (48 + d)

/-- Two's-complement wrap-around into the value range of a 64-bit signed
`long long`.  Signed overflow is undefined behaviour in C++; this models the
two's-complement behaviour the compiled code exhibits (the source
acknowledges the missing overflow handling: `// TODO: handle overflow`). -/
def wrap64 (x : Int) : Int :=
  if x % 18446744073709551616 < 9223372036854775808 then
    x % 18446744073709551616
  else
    x % 18446744073709551616 - 18446744073709551616

/-- `static_cast<std::ptrdiff_t>(len)` for a `std::size_t` value:
reinterpretation of the unsigned 64-bit value as signed 64-bit. -/
def sizetAsPtrdiff (n : Nat) : Int := wrap64 (n : Int)

/-- The failure taxonomy of `bencode.hpp`.  Each constructor stands for a
`throw std::invalid_argument(...)` site with the given message:
* `unexpectedEnd` — "unexpected end of string";
* `expectedE` — "expected 'e'";
* `expectedColon` — "expected ':'";
* `expectedStrToken` — "expected string token";
* `duplicateKey k` — "duplicated key in dict: " + k;
* `unexpectedType` — "unexpected type" (dispatch on an unknown tag byte, or
  encoding an `any` holding none of the supported types).
`lengthError` is the `std::length_error` thrown by a `std::string`
constructor whose requested count exceeds `max_size()` — a defined failure
outside the `invalid_argument` taxonomy above; `ub` marks control paths
whose C++ behaviour is undefined (an out-of-bounds iterator read or
advance); `outOfFuel` is the artificial guard of the fuelled recursion,
unreachable from the public entry point. -/
inductive Err where
  | unexpectedEnd
  | expectedE
  | expectedColon
  | expectedStrToken
  | duplicateKey (k : List Char)
  | unexpectedType
  | lengthError
  | ub
  | outOfFuel
deriving DecidableEq, Repr

/-- The value model: `BENCODE_ANY_NS::any` as populated by this library.
`none` is the empty (default-constructed) `any`; the other constructors are
`bencode::integer` (`long long`), `bencode::string` (`std::string`),
`bencode::list` (`std::vector<any>`), and `bencode::dict`
(`std::map<std::string, any>`, represented as its ordered pair list). -/
inductive Bany where
  | none
  | int (i : Int)
  | str (s : List Char)
  | list (l : List Bany)
  | dict (d : List (List Char × Bany))
deriving Repr

/-- Byte-lexicographic "less than" on strings: `std::less<std::string>`,
the key order of `std::map<std::string, any>`. -/
def ltStr : List Char → List Char → Bool
  | [], [] => false
  | [], _ :: _ => true
  | _ :: _, [] => false
  | a :: as, b :: bs =>
    if a < b then true else if b < a then false else ltStr as bs

/-- `std::map::emplace` on the ordered pair list that represents the map:
the insertion keeps the list sorted by `ltStr` and is refused (`none`,
leaving the map unchanged) when the key is already present — this is the
`result.second == false` case of the C++ call. -/
def emplace (k : List Char) (v : Bany) :
    List (List Char × Bany) → Option (List (List Char × Bany))
  | [] => some [(k, v)]
  | (k2, v2) :: rest =>
    if ltStr k k2 then some ((k, v) :: (k2, v2) :: rest)
    else if ltStr k2 k then
      match emplace k v rest with
      | some rest2 => some ((k2, v2) :: rest2)
      | none => none
    else none

/-- The digit-accumulation loop of `detail::decode_int_real`:
`value = value * 10 + *begin - '0'` on the 64-bit signed accumulator,
advancing while the next byte exists and is a digit. -/
def intDigits : Int → List Char → Int × List Char
  | v, [] => (v, [])
  | v, c :: rest =>
    if isDigit c then intDigits (wrap64 (v * 10 + (charToDigit c : Int))) rest
    else (v, c :: rest)

/-- The tail of `detail::decode_int_real` after the optional sign: run the
digit loop, require the input not to be exhausted, require the terminator
`'e'`, and produce `positive ? value : -value` (the negation again in
wrapping 64-bit arithmetic). -/
def intTail (positive : Bool) (l : List Char) : Except Err (Int × List Char) :=
  match intDigits 0 l with
  | (value, l2) =>
    match l2 with
    | [] => .error .unexpectedEnd
    | c :: rest =>
      if c = 'e' then
        .ok ((if positive then value else wrap64 (-value)), rest)
      else .error .expectedE

/-- `detail::decode_int_real`.  The first byte is asserted to be `'i'` and
consumed (`++begin`); the byte after it is then read unconditionally by
`if(*begin == '-')` — when the input ended right after the `'i'`, that read
dereferences the `end` iterator, an out-of-bounds access (`Err.ub`). -/
def decode_int_real : List Char → Except Err (Int × List Char)
  | [] => .error .ub
  | _ :: [] => .error .ub
  | _ :: c :: rest =>
    if c = '-' then intTail false rest else intTail true (c :: rest)

/-- The length-accumulation loop of `detail::decode_str`:
`len = len * 10 + *begin - '0'` on a `std::size_t`, i.e. with defined
modular (mod `2^64`) unsigned arithmetic. -/
def lenDigits : Nat → List Char → Nat × List Char
  | len, [] => (len, [])
  | len, c :: rest =>
    if isDigit c then
      lenDigits ((len * 10 + charToDigit c) % 18446744073709551616) rest
    else (len, c :: rest)

/-- `detail::str_reader<false>::call` for forward (random-access capable)
iterators: an up-front bound check
`std::distance(begin, end) < static_cast<std::ptrdiff_t>(len)`, then
`std::string value(len, 0)`, then a bulk `std::copy_n` of `len` bytes and
an advance of `begin` by `len`.
The check casts the unsigned length to a signed 64-bit value, so a length
`≥ 2^63` compares negative and slips past it; the `std::string` constructor
then throws `std::length_error`, because every such length exceeds
`std::string::max_size()`, which is at most the object-size cap
`PTRDIFF_MAX = 2^63 - 1` on a 64-bit platform.  The model fixes the
allocation bound at that cap: a length below `2^63` that passed the
distance check is bounded by the length of the materialized input buffer —
itself below `max_size()` for any buffer that can exist — so treating the
allocation as succeeding there matches every observable input, and the
`copy_n` is then in bounds because the passed check guarantees
`len ≤ distance`. -/
def strReaderFwd (l : List Char) (len : Nat) :
    Except Err (List Char × List Char) :=
  if (l.length : Int) < sizetAsPtrdiff len then .error .unexpectedEnd
  else if 9223372036854775807 < len then .error .lengthError
  else .ok (l.take len, l.drop len)

/-- The byte loop of `detail::str_reader<false>::call` for input
(sequential-only) iterators: reads the `len` bytes one by one, checking
`begin == end` before each read. -/
def strReaderSeqAux : List Char → Nat → List Char →
    Except Err (List Char × List Char)
  | l, 0, acc => .ok (acc.reverse, l)
  | [], _ + 1, _ => .error .unexpectedEnd
  | c :: rest, n + 1, acc => strReaderSeqAux rest n (c :: acc)

/-- The sequential-only string reader: `std::string value(len, 0)` runs
first and throws `std::length_error` when `len` exceeds the string's
`max_size()` — before any byte is read — and only then the byte-by-byte
loop of `strReaderSeqAux` runs.  `max_size()` is implementation-defined, so
it is a parameter here, and every statement about this reader quantifies
over it. -/
def strReaderSeq (maxSize : Nat) (l : List Char) (len : Nat) :
    Except Err (List Char × List Char) :=
  if maxSize < len then .error .lengthError
  else strReaderSeqAux l len []

/-- `detail::str_reader<true>` (view mode, random access only): the same
signed-cast bound check as the forward copy reader, then a slice referencing
the input plus `std::advance(begin, len)`.  The slice's bytes equal the
corresponding bytes of the input buffer (zero-copy aliasing); an advance
past `end` is out of bounds (`Err.ub`). -/
def strReaderView (l : List Char) (len : Nat) :
    Except Err (List Char × List Char) :=
  if (l.length : Int) < sizetAsPtrdiff len then .error .unexpectedEnd
  else if l.length < len then .error .ub
  else .ok (l.take len, l.drop len)

/-- `detail::decode_str` (copy mode, forward iterators): accumulate the
unsigned length prefix, require the input not to be exhausted, require the
separator `':'`, consume it, and hand off to the string reader.  (The
function's entry `assert(std::isdigit(*begin))` is a debug assertion; every
caller has already checked the first byte is a digit.) -/
def decodeStr (l : List Char) : Except Err (List Char × List Char) :=
  match lenDigits 0 l with
  | (len, l1) =>
    match l1 with
    | [] => .error .unexpectedEnd
    | c :: rest =>
      if c = ':' then strReaderFwd rest len else .error .expectedColon

mutual

/-- `detail::decode_data` (copy mode), with explicit fuel.  Dispatch on one
lookahead byte: an exhausted input yields the empty `any`; `'i'` → integer,
`'l'` → list, `'d'` → dict, an ASCII digit → string; anything else throws
"unexpected type".  The list/dict bodies receive the input after their
consumed opening tag (`assert` + `++begin` in the C++). -/
def decodeDataF : Nat → List Char → Except Err (Bany × List Char)
  | 0, _ => .error .outOfFuel
  | _ + 1, [] => .ok (.none, [])
  | fuel + 1, c :: rest =>
    if c = 'i' then
      match decode_int_real (c :: rest) with
      | .error e => .error e
      | .ok (v, r) => .ok (.int v, r)
    else if c = 'l' then
      match decodeListF fuel rest with
      | .error e => .error e
      | .ok (vs, r) => .ok (.list vs, r)
    else if c = 'd' then
      match decodeDictF fuel [] rest with
      | .error e => .error e
      | .ok (d, r) => .ok (.dict d, r)
    else if isDigit c then
      match decodeStr (c :: rest) with
      | .error e => .error e
      | .ok (s, r) => .ok (.str s, r)
    else .error .unexpectedType

/-- The item loop of `detail::decode_list` (the input starts after the
consumed `'l'` tag): while the input is not exhausted and the next byte is
not `'e'`, decode one value and append it; an exhausted input before the
terminator throws "unexpected end of string"; the terminator is consumed. -/
def decodeListF : Nat → List Char → Except Err (List Bany × List Char)
  | 0, _ => .error .outOfFuel
  | _ + 1, [] => .error .unexpectedEnd
  | fuel + 1, c :: rest =>
    if c = 'e' then .ok ([], rest)
    else
      match decodeDataF fuel (c :: rest) with
      | .error e => .error e
      | .ok (v, l1) =>
        match decodeListF fuel l1 with
        | .error e => .error e
        | .ok (vs, l2) => .ok (v :: vs, l2)

/-- The pair loop of `detail::decode_dict` (the input starts after the
consumed `'d'` tag; `acc` is the map built so far): while the input is not
exhausted and the next byte is not `'e'`, require a digit (else "expected
string token"), decode a string key and a value, and `emplace` the pair —
a refused insertion throws "duplicated key in dict: <key>"; an exhausted
input before the terminator throws "unexpected end of string". -/
def decodeDictF : Nat → List (List Char × Bany) → List Char →
    Except Err (List (List Char × Bany) × List Char)
  | 0, _, _ => .error .outOfFuel
  | _ + 1, _, [] => .error .unexpectedEnd
  | fuel + 1, acc, c :: rest =>
    if c = 'e' then .ok (acc, rest)
    else if isDigit c then
      match decodeStr (c :: rest) with
      | .error e => .error e
      | .ok (k, l1) =>
        match decodeDataF fuel l1 with
        | .error e => .error e
        | .ok (v, l2) =>
          match emplace k v acc with
          | some acc2 => decodeDictF fuel acc2 l2
          | none => .error (.duplicateKey k)
    else .error .expectedStrToken

end

/-- `bencode::decode` over a delimited range (`detail::decode_data<false>`),
returning the decoded value and the position marker after the consumed
bytes.  The supplied fuel `2 * length + 2` dominates the recursion depth
(every second nested call consumes at least one input byte), so
`Err.outOfFuel` is unreachable here. -/
def decode (l : List Char) : Except Err (Bany × List Char) :=
  decodeDataF (2 * l.length + 2) l

/-- Digit-extraction loop for printing a natural number in decimal (the
fuel argument only drives the recursion; `n` itself is enough fuel). -/
def natReprAux : Nat → Nat → List Char → List Char
  | 0, _, acc => acc
  | fuel + 1, n, acc =>
    if n = 0 then acc else natReprAux fuel (n / 10) (digitChar (n % 10) :: acc)

/-- The decimal digit string printed for a natural number (what
`operator<<(std::ostream&, unsigned long long)` emits): no leading zeros,
and `"0"` for zero. -/
def natRepr (n : Nat) : List Char :=
  if n = 0 then ['0'] else natReprAux n n []

/-- The characters printed for a `long long` by `operator<<`: a `'-'`
exactly when the value is negative, then the minimal decimal digits of the
magnitude. -/
def intRepr (i : Int) : List Char :=
  if i < 0 then '-' :: natRepr (-i).toNat else natRepr i.toNat

/-- `encode(std::ostream&, integer)`: `os << "i" << value << "e"`. -/
def encodeInt (i : Int) : List Char := 'i' :: (intRepr i ++ ['e'])

/-- `encode(std::ostream&, const string_view&)`:
`os << value.size() << ":" << value`. -/
def encodeStr (s : List Char) : List Char := natRepr s.length ++ ':' :: s

mutual

/-- `encode(std::ostream&, const any&)`: dispatch on the runtime type tag;
an `any` holding none of the supported types throws "unexpected type". -/
def encodeAny : Bany → Except Err (List Char)
  | .none => .error .unexpectedType
  | .int i => .ok (encodeInt i)
  | .str s => .ok (encodeStr s)
  | .list l =>
    match encodeItems l with
    | .error e => .error e
    | .ok b => .ok ('l' :: (b ++ ['e']))
  | .dict d =>
    match encodePairs d with
    | .error e => .error e
    | .ok b => .ok ('d' :: (b ++ ['e']))

/-- `encode(std::ostream&, const std::vector<T>&)` via `list_encoder`:
`'l'`, then each element in order, then `'e'` — this function produces the
bytes between the brackets. -/
def encodeItems : List Bany → Except Err (List Char)
  | [] => .ok []
  | v :: rest =>
    match encodeAny v with
    | .error e => .error e
    | .ok b =>
      match encodeItems rest with
      | .error e => .error e
      | .ok bs => .ok (b ++ bs)

/-- `encode(std::ostream&, const std::map<std::string, T>&)` via
`dict_encoder`: for each pair in the map's (sorted) iteration order, the
key as a string token followed by the encoded value — this function
produces the bytes between the brackets. -/
def encodePairs : List (List Char × Bany) → Except Err (List Char)
  | [] => .ok []
  | (k, v) :: rest =>
    match encodeAny v with
    | .error e => .error e
    | .ok bv =>
      match encodePairs rest with
      | .error e => .error e
      | .ok bs => .ok (encodeStr k ++ (bv ++ bs))

end

/-- The ordered pair list of a `std::map` has strictly ascending keys:
each key is `ltStr`-below the next. -/
def sortedKeys : List (List Char × Bany) → Bool
  | [] => true
  | [_] => true
  | (k1, _) :: (k2, v2) :: rest =>
    ltStr k1 k2 && sortedKeys ((k2, v2) :: rest)

mutual

/-- Canonically-formed (round-trippable) values: no empty `any`; integers
within the signed 64-bit range of `bencode::integer`; string lengths within
the 64-bit object-size cap `PTRDIFF_MAX` — an upper bound of
`std::string::max_size()`, so the string is representable as a
`bencode::string` at all, and the decoded length prefix neither wraps nor
trips the allocation bound; dict pair lists sorted by the `std::map` key
order, with the same constraints on keys and recursively on children. -/
def wfB : Bany → Bool
  | .none => false
  | .int i =>
    decide (-9223372036854775808 ≤ i) && decide (i < 9223372036854775808)
  | .str s => decide (s.length < 9223372036854775808)
  | .list l => wfList l
  | .dict d => sortedKeys d && wfDict d

/-- `wfB` on every element of a list. -/
def wfList : List Bany → Bool
  | [] => true
  | v :: rest => wfB v && wfList rest

/-- `wfB` on every value of a pair list, with key lengths within the
64-bit object-size cap. -/
def wfDict : List (List Char × Bany) → Bool
  | [] => true
  | (k, v) :: rest =>
    decide (k.length < 9223372036854775808) && wfB v && wfDict rest

end

mutual

/-- Structural size of a value (used for the round-trip induction). -/
def bsize : Bany → Nat
  | .none => 1
  | .int _ => 1
  | .str _ => 1
  | .list l => 1 + lsize l
  | .dict d => 1 + dsize d

/-- Structural size of a value list. -/
def lsize : List Bany → Nat
  | [] => 0
  | v :: rest => bsize v + 1 + lsize rest

/-- Structural size of a pair list. -/
def dsize : List (List Char × Bany) → Nat
  | [] => 0
  | (_, v) :: rest => bsize v + 1 + dsize rest

end

/-- The value a digit string denotes in base 10 (most significant digit
first), with unbounded arithmetic. -/
def natVal (l : List Char) : Nat :=
  l.foldl (fun v c => v * 10 + charToDigit c) 0

/-- Building a `std::map` by a sequence of `emplace` insertions from an
arbitrary (unsorted, possibly repeating) list of pairs; a refused insertion
leaves the map unchanged, as in C++. -/
def buildMap (l : List (List Char × Bany)) : List (List Char × Bany) :=
  l.foldl
    (fun d kv =>
      match emplace kv.1 kv.2 d with
      | some d2 => d2
      | none => d)
    []

/-! ### Lemmas: 64-bit wrap arithmetic -/

theorem wrap64_eq_self {x : Int} (h1 : -9223372036854775808 ≤ x)
    (h2 : x < 9223372036854775808) : wrap64 x = x := by
  unfold wrap64
  split <;> omega

theorem wrap64_mod (x : Int) :
    wrap64 x % 18446744073709551616 = x % 18446744073709551616 := by
  unfold wrap64
  split <;> omega

theorem wrap64_congr {x y : Int}
    (h : x % 18446744073709551616 = y % 18446744073709551616) :
    wrap64 x = wrap64 y := by
  unfold wrap64
  rw [h]

theorem wrap64_step (a d : Int) :
    wrap64 (wrap64 a * 10 + d) = wrap64 (a * 10 + d) := by
  apply wrap64_congr
  have := wrap64_mod a
  omega

theorem wrap64_neg (n : Int) : wrap64 (-(wrap64 n)) = wrap64 (-n) := by
  apply wrap64_congr
  have := wrap64_mod n
  omega

theorem wrap64_natCast_le (n : Nat) : wrap64 (n : Int) ≤ (n : Int) := by
  unfold wrap64
  split <;> omega

/-! ### Lemmas: digit bytes -/

theorem digitChar_spec {d : Nat} (h : d < 10) :
    charToDigit (digitChar d) = d ∧ isDigit (digitChar d) = true ∧
    digitChar d ≠ 'e' ∧ digitChar d ≠ ':' ∧ digitChar d ≠ '-' ∧
    (digitChar d = '0' → d = 0) := by
  interval_cases d <;>
    exact ⟨by decide, by decide, by decide, by decide, by decide, by decide⟩

theorem isDigit_ne {c : Char} (h : isDigit c = true) :
    c ≠ 'i' ∧ c ≠ 'l' ∧ c ≠ 'd' ∧ c ≠ 'e' ∧ c ≠ ':' := by
  refine ⟨?_, ?_, ?_, ?_, ?_⟩ <;> (intro h2; subst h2; exact absurd h (by decide))

/-! ### Lemmas: the printed decimal representation -/

theorem natReprAux_eq : ∀ (fuel n : Nat), n ≤ fuel → ∀ acc,
    natReprAux fuel n acc = (Nat.digits 10 n).reverse.map digitChar ++ acc := by
  intro fuel
  induction fuel with
  | zero =>
    intro n hn acc
    interval_cases n
    simp [natReprAux]
  | succ f ih =>
    intro n hn acc
    by_cases h0 : n = 0
    · subst h0
      simp [natReprAux]
    · have hdiv : n / 10 ≤ f := by omega
      simp only [natReprAux, h0, if_false]
      rw [ih (n / 10) hdiv]
      rw [Nat.digits_def' (by norm_num : (1 : Nat) < 10) (Nat.pos_of_ne_zero h0)]
      simp

theorem natRepr_eq (n : Nat) :
    natRepr n =
      if n = 0 then ['0'] else (Nat.digits 10 n).reverse.map digitChar := by
  unfold natRepr
  by_cases h : n = 0
  · simp [h]
  · simp [h, natReprAux_eq n n le_rfl []]

theorem natRepr_ne_nil (n : Nat) : natRepr n ≠ [] := by
  rw [natRepr_eq]
  by_cases h : n = 0
  · simp [h]
  · simp [h, Nat.digits_ne_nil_iff_ne_zero.mpr h]

theorem natRepr_digits {n : Nat} : ∀ c ∈ natRepr n, isDigit c = true := by
  rw [natRepr_eq]
  by_cases h : n = 0
  · simp [h]
    decide
  · intro c hc
    simp only [h, if_false, List.mem_map, List.mem_reverse] at hc
    obtain ⟨d, hd, rfl⟩ := hc
    exact (digitChar_spec (Nat.digits_lt_base (by norm_num) hd)).2.1

theorem natRepr_head_zero {n : Nat} (h : (natRepr n).head? = some '0') :
    n = 0 := by
  by_contra h0
  rw [natRepr_eq] at h
  simp only [h0, if_false] at h
  have hne : Nat.digits 10 n ≠ [] := Nat.digits_ne_nil_iff_ne_zero.mpr h0
  rw [List.head?_map, List.head?_reverse] at h
  rw [List.getLast?_eq_getLast _ hne] at h
  simp only [Option.map_some'] at h
  have hlast := Nat.getLast_digit_ne_zero 10 h0
  have hmem : (Nat.digits 10 n).getLast hne ∈ Nat.digits 10 n :=
    List.getLast_mem hne
  have hlt : (Nat.digits 10 n).getLast hne < 10 :=
    Nat.digits_lt_base (by norm_num) hmem
  exact hlast ((digitChar_spec hlt).2.2.2.2.2 (by injection h))

theorem foldl_digitChar : ∀ (L : List Nat), (∀ d ∈ L, d < 10) →
    ∀ a : Nat, (L.map digitChar).foldl (fun v c => v * 10 + charToDigit c) a
      = L.foldl (fun v d => v * 10 + d) a := by
  intro L
  induction L with
  | nil => intro _ a; rfl
  | cons d L ih =>
    intro hL a
    simp only [List.map_cons, List.foldl_cons]
    rw [(digitChar_spec (hL d (by simp))).1]
    exact ih (fun x hx => hL x (by simp [hx])) _

theorem foldl_eq_ofDigits (L : List Nat) :
    L.reverse.foldl (fun v d => v * 10 + d) 0 = Nat.ofDigits 10 L := by
  rw [List.foldl_reverse]
  induction L with
  | nil => simp [Nat.ofDigits]
  | cons d L ih =>
    simp only [List.foldr_cons, ih, Nat.ofDigits_cons]
    ring

theorem natVal_natRepr (n : Nat) : natVal (natRepr n) = n := by
  rw [natRepr_eq]
  by_cases h : n = 0
  · simp [h, natVal, charToDigit]
  · unfold natVal
    simp only [h, if_false]
    rw [foldl_digitChar _
      (fun d hd => Nat.digits_lt_base (by norm_num) (List.mem_reverse.mp hd))]
    rw [foldl_eq_ofDigits]
    exact Nat.ofDigits_digits 10 n

/-! ### Lemmas: the decoder digit loops -/

theorem intDigits_go : ∀ (ds : List Char), (∀ c ∈ ds, isDigit c = true) →
    ∀ (v : Int) (r : List Char), (∀ c, r.head? = some c → isDigit c = false) →
    intDigits v (ds ++ r) =
      (ds.foldl (fun a c => wrap64 (a * 10 + (charToDigit c : Int))) v, r) := by
  intro ds
  induction ds with
  | nil =>
    intro _ v r hr
    cases r with
    | nil => rfl
    | cons c rest => simp [intDigits, hr c rfl]
  | cons c ds ih =>
    intro hds v r hr
    simp only [List.cons_append, intDigits, hds c (by simp), if_true,
      List.foldl_cons]
    exact ih (fun x hx => hds x (by simp [hx])) _ r hr

theorem wfold_eq : ∀ (ds : List Char) (a : Int),
    ds.foldl (fun a c => wrap64 (a * 10 + (charToDigit c : Int))) (wrap64 a)
      = wrap64 (ds.foldl (fun a c => a * 10 + (charToDigit c : Int)) a) := by
  intro ds
  induction ds with
  | nil => intro a; rfl
  | cons c ds ih =>
    intro a
    simp only [List.foldl_cons]
    rw [wrap64_step]
    exact ih (a * 10 + (charToDigit c : Int))

theorem pfold_natVal : ∀ (ds : List Char) (a : Nat),
    ds.foldl (fun v c => v * 10 + (charToDigit c : Int)) (a : Int)
      = ((ds.foldl (fun v c => v * 10 + charToDigit c) a : Nat) : Int) := by
  intro ds
  induction ds with
  | nil => intro a; rfl
  | cons c ds ih =>
    intro a
    simp only [List.foldl_cons]
    rw [show ((a : Int) * 10 + (charToDigit c : Int))
        = ((a * 10 + charToDigit c : Nat) : Int) by push_cast; ring]
    exact ih _

theorem intDigits_natRepr (n : Nat) (r : List Char)
    (hr : ∀ c, r.head? = some c → isDigit c = false) :
    intDigits 0 (natRepr n ++ r) = (wrap64 (n : Int), r) := by
  rw [intDigits_go (natRepr n) (fun c hc => natRepr_digits c hc) 0 r hr]
  have h0 : (0 : Int) = wrap64 0 := by decide
  rw [h0, wfold_eq]
  rw [show ((0 : Int)) = ((0 : Nat) : Int) from rfl, pfold_natVal]
  have : (natRepr n).foldl (fun v c => v * 10 + charToDigit c) 0 = n :=
    natVal_natRepr n
  rw [this]

theorem lenDigits_go : ∀ (ds : List Char), (∀ c ∈ ds, isDigit c = true) →
    ∀ (a : Nat) (r : List Char), (∀ c, r.head? = some c → isDigit c = false) →
    lenDigits a (ds ++ r) =
      (ds.foldl (fun v c => (v * 10 + charToDigit c) % 18446744073709551616) a,
        r) := by
  intro ds
  induction ds with
  | nil =>
    intro _ a r hr
    cases r with
    | nil => rfl
    | cons c rest => simp [lenDigits, hr c rfl]
  | cons c ds ih =>
    intro hds a r hr
    simp only [List.cons_append, lenDigits, hds c (by simp), if_true,
      List.foldl_cons]
    exact ih (fun x hx => hds x (by simp [hx])) _ r hr

theorem lenfold_eq : ∀ (ds : List Char) (a : Nat),
    ds.foldl (fun v c => (v * 10 + charToDigit c) % 18446744073709551616)
        (a % 18446744073709551616)
      = (ds.foldl (fun v c => v * 10 + charToDigit c) a)
          % 18446744073709551616 := by
  intro ds
  induction ds with
  | nil => intro a; rfl
  | cons c ds ih =>
    intro a
    simp only [List.foldl_cons]
    rw [show (a % 18446744073709551616 * 10 + charToDigit c)
          % 18446744073709551616
        = (a * 10 + charToDigit c) % 18446744073709551616 by omega]
    exact ih _

theorem lenDigits_natRepr (n : Nat) (hn : n < 18446744073709551616)
    (r : List Char) (hr : ∀ c, r.head? = some c → isDigit c = false) :
    lenDigits 0 (natRepr n ++ r) = (n, r) := by
  rw [lenDigits_go (natRepr n) (fun c hc => natRepr_digits c hc) 0 r hr]
  have h1 := lenfold_eq (natRepr n) 0
  simp only [Nat.zero_mod] at h1
  rw [h1]
  have h2 := natVal_natRepr n
  unfold natVal at h2
  rw [h2, Nat.mod_eq_of_lt hn]

/-! ### Lemmas: the sequential string reader -/

theorem strReaderSeqAux_short : ∀ (l : List Char) (len : Nat) (acc : List Char),
    l.length < len → strReaderSeqAux l len acc = .error .unexpectedEnd := by
  intro l
  induction l with
  | nil =>
    intro len acc h
    cases len with
    | zero => omega
    | succ m => rfl
  | cons c rest ih =>
    intro len acc h
    cases len with
    | zero => omega
    | succ m =>
      exact ih m (c :: acc) (by simpa using h)

/-! ### Lemmas: the map key order and `emplace` -/

theorem ltStr_irrefl : ∀ k, ltStr k k = false := by
  intro k
  induction k with
  | nil => rfl
  | cons c k ih => simp [ltStr, ih]

theorem ltStr_asymm : ∀ a b, ltStr a b = true → ltStr b a = false := by
  intro a
  induction a with
  | nil =>
    intro b h
    cases b with
    | nil => exact absurd h (by simp [ltStr])
    | cons d bs => rfl
  | cons c as ih =>
    intro b h
    cases b with
    | nil => exact absurd h (by simp [ltStr])
    | cons d bs =>
      simp only [ltStr] at h ⊢
      by_cases h1 : c < d
      · have h2 : ¬ d < c := lt_asymm h1
        simp [h1, h2]
      · by_cases h2 : d < c
        · simp [h1, h2] at h
        · simp only [h1, h2, if_false] at h ⊢
          exact ih bs h

theorem ltStr_trans : ∀ a b c, ltStr a b = true → ltStr b c = true →
    ltStr a c = true := by
  intro a
  induction a with
  | nil =>
    intro b c h1 h2
    cases b with
    | nil => exact absurd h1 (by simp [ltStr])
    | cons y bs =>
      cases c with
      | nil => exact absurd h2 (by simp [ltStr])
      | cons z cs => simp [ltStr]
  | cons x as ih =>
    intro b c h1 h2
    cases b with
    | nil => exact absurd h1 (by simp [ltStr])
    | cons y bs =>
      cases c with
      | nil => exact absurd h2 (by simp [ltStr])
      | cons z cs =>
        simp only [ltStr] at h1 h2 ⊢
        by_cases hxy : x < y
        · by_cases hyz : y < z
          · simp [lt_trans hxy hyz]
          · by_cases hzy : z < y
            · simp [hyz, hzy] at h2
            · have hyzeq : y = z := le_antisymm (not_lt.mp hzy) (not_lt.mp hyz)
              subst hyzeq
              simp [hxy]
        · by_cases hyx : y < x
          · simp [hxy, hyx] at h1
          · have hxyeq : x = y := le_antisymm (not_lt.mp hyx) (not_lt.mp hxy)
            subst hxyeq
            simp only [lt_irrefl, if_false] at h1
            by_cases hxz : x < z
            · simp [hxz]
            · by_cases hzx : z < x
              · simp [hxz, hzx] at h2
              · have hxzeq : x = z := le_antisymm (not_lt.mp hzx) (not_lt.mp hxz)
                subst hxzeq
                simp only [lt_irrefl, if_false] at h2 ⊢
                exact ih bs cs h1 h2

theorem sortedKeys_tail {p : List Char × Bany} {d : List (List Char × Bany)}
    (h : sortedKeys (p :: d) = true) : sortedKeys d = true := by
  cases d with
  | nil => rfl
  | cons q d' =>
    obtain ⟨p1, p2⟩ := p
    obtain ⟨q1, q2⟩ := q
    simp only [sortedKeys, Bool.and_eq_true] at h
    exact h.2

theorem sortedKeys_cons_of {p q : List Char × Bany}
    {r : List (List Char × Bany)} (h1 : ltStr p.1 q.1 = true)
    (h2 : sortedKeys (q :: r) = true) : sortedKeys (p :: q :: r) = true := by
  obtain ⟨p1, p2⟩ := p
  obtain ⟨q1, q2⟩ := q
  simp only [sortedKeys, Bool.and_eq_true]
  exact ⟨h1, h2⟩

theorem sortedKeys_head_lt : ∀ (p : List Char × Bany)
    (d : List (List Char × Bany)), sortedKeys (p :: d) = true →
    ∀ q ∈ d, ltStr p.1 q.1 = true := by
  intro p d
  induction d generalizing p with
  | nil =>
    intro _ q hq
    exact absurd hq (List.not_mem_nil q)
  | cons q2 d' ih =>
    intro h q hq
    obtain ⟨p1, p2⟩ := p
    obtain ⟨q21, q22⟩ := q2
    simp only [sortedKeys, Bool.and_eq_true] at h
    rcases List.mem_cons.mp hq with rfl | hq'
    · exact h.1
    · exact ltStr_trans _ _ _ h.1 (ih (q21, q22) h.2 q hq')

theorem sortedKeys_append_lt : ∀ (xs : List (List Char × Bany))
    (q : List Char × Bany) (ys : List (List Char × Bany)),
    sortedKeys (xs ++ q :: ys) = true → ∀ p ∈ xs, ltStr p.1 q.1 = true := by
  intro xs
  induction xs with
  | nil =>
    intro q ys _ p hp
    exact absurd hp (List.not_mem_nil p)
  | cons x xs' ih =>
    intro q ys h p hp
    rcases List.mem_cons.mp hp with rfl | hp'
    · exact sortedKeys_head_lt p (xs' ++ q :: ys) h q (by simp)
    · exact ih q ys (sortedKeys_tail h) p hp'

theorem emplace_append : ∀ (d : List (List Char × Bany)) (k : List Char)
    (v : Bany), (∀ p ∈ d, ltStr p.1 k = true) →
    emplace k v d = some (d ++ [(k, v)]) := by
  intro d
  induction d with
  | nil => intro k v _; rfl
  | cons p d' ih =>
    intro k v h
    obtain ⟨k2, v2⟩ := p
    have hlt : ltStr k2 k = true := h (k2, v2) (by simp)
    simp only [emplace, ltStr_asymm _ _ hlt, Bool.false_eq_true, if_false,
      hlt, if_true]
    rw [ih k v (fun p hp => h p (by simp [hp]))]
    simp

theorem emplace_dup : ∀ (d : List (List Char × Bany)), sortedKeys d = true →
    ∀ (k : List Char), k ∈ d.map Prod.fst → ∀ (v : Bany),
    emplace k v d = none := by
  intro d
  induction d with
  | nil =>
    intro _ k hk
    simp at hk
  | cons p d' ih =>
    intro hs k hk v
    obtain ⟨k2, v2⟩ := p
    simp only [List.map_cons, List.mem_cons] at hk
    rcases hk with rfl | hk'
    · simp [emplace, ltStr_irrefl]
    · obtain ⟨p', hp', hpk⟩ := List.mem_map.mp hk'
      have hlt : ltStr k2 k = true := by
        have h0 := sortedKeys_head_lt (k2, v2) d' hs p' hp'
        rw [hpk] at h0
        exact h0
      have hfalse : ltStr k k2 = false := ltStr_asymm _ _ hlt
      simp only [emplace, hfalse, Bool.false_eq_true, if_false, hlt, if_true]
      rw [ih (sortedKeys_tail hs) k hk' v]

theorem emplace_head : ∀ (d : List (List Char × Bany)) (k : List Char)
    (v : Bany) (d2 : List (List Char × Bany)), emplace k v d = some d2 →
    ∃ p r, d2 = p :: r ∧ (p.1 = k ∨ d.head? = some p) := by
  intro d k v d2 h
  cases d with
  | nil =>
    simp only [emplace, Option.some.injEq] at h
    exact ⟨(k, v), [], by simp [← h], Or.inl rfl⟩
  | cons p d' =>
    obtain ⟨k2, v2⟩ := p
    simp only [emplace] at h
    by_cases h1 : ltStr k k2 = true
    · simp only [h1, if_true, Option.some.injEq] at h
      exact ⟨(k, v), (k2, v2) :: d', by simp [← h], Or.inl rfl⟩
    · simp only [Bool.not_eq_true] at h1
      simp only [h1, Bool.false_eq_true, if_false] at h
      by_cases h2 : ltStr k2 k = true
      · simp only [h2, if_true] at h
        cases hE : emplace k v d' with
        | some r2 =>
          rw [hE] at h
          simp only [Option.some.injEq] at h
          exact ⟨(k2, v2), r2, by simp [← h], Or.inr rfl⟩
        | none =>
          rw [hE] at h
          simp at h
      · simp only [Bool.not_eq_true] at h2
        simp only [h2, Bool.false_eq_true, if_false] at h
        simp at h

theorem emplace_sorted : ∀ (d : List (List Char × Bany)), sortedKeys d = true →
    ∀ (k : List Char) (v : Bany) (d2 : List (List Char × Bany)),
    emplace k v d = some d2 → sortedKeys d2 = true := by
  intro d
  induction d with
  | nil =>
    intro _ k v d2 h
    simp only [emplace, Option.some.injEq] at h
    rw [← h]
    rfl
  | cons p d' ih =>
    intro hs k v d2 h
    obtain ⟨k2, v2⟩ := p
    simp only [emplace] at h
    by_cases h1 : ltStr k k2 = true
    · simp only [h1, if_true, Option.some.injEq] at h
      rw [← h]
      exact sortedKeys_cons_of (p := (k, v)) (q := (k2, v2)) h1 hs
    · simp only [Bool.not_eq_true] at h1
      simp only [h1, Bool.false_eq_true, if_false] at h
      by_cases h2 : ltStr k2 k = true
      · simp only [h2, if_true] at h
        cases hE : emplace k v d' with
        | none =>
          rw [hE] at h
          simp at h
        | some r2 =>
          rw [hE] at h
          simp only [Option.some.injEq] at h
          rw [← h]
          have hr2 : sortedKeys r2 = true := ih (sortedKeys_tail hs) k v r2 hE
          obtain ⟨q, r3, rfl, hq⟩ := emplace_head d' k v r2 hE
          rcases hq with hqk | hqh
          · exact sortedKeys_cons_of (p := (k2, v2)) (by rw [hqk]; exact h2) hr2
          · have hlt : ltStr k2 q.1 = true := by
              cases d' with
              | nil => simp at hqh
              | cons q0 d'' =>
                simp only [List.head?_cons, Option.some.injEq] at hqh
                subst hqh
                exact sortedKeys_head_lt (k2, v2) (q0 :: d'') hs q0 (by simp)
            exact sortedKeys_cons_of (p := (k2, v2)) hlt hr2
      · simp only [Bool.not_eq_true] at h2
        simp only [h2, Bool.false_eq_true, if_false] at h
        simp at h

theorem buildMap_sorted_aux : ∀ (l : List (List Char × Bany))
    (acc : List (List Char × Bany)), sortedKeys acc = true →
    sortedKeys (l.foldl
      (fun d kv =>
        match emplace kv.1 kv.2 d with
        | some d2 => d2
        | none => d)
      acc) = true := by
  intro l
  induction l with
  | nil => intro acc h; exact h
  | cons kv l' ih =>
    intro acc h
    simp only [List.foldl_cons]
    apply ih
    cases hE : emplace kv.1 kv.2 acc with
    | some d2 => simpa [hE] using emplace_sorted acc h kv.1 kv.2 d2 hE
    | none => simpa [hE] using h

theorem buildMap_sorted (l : List (List Char × Bany)) :
    sortedKeys (buildMap l) = true := by
  unfold buildMap
  exact buildMap_sorted_aux l [] rfl

/-! ### Lemmas: round trips of the scalar tokens -/

theorem head_isDigit_false_of_cons {c0 : Char} (h : isDigit c0 = false)
    (t : List Char) : ∀ c, ((c0 :: t).head? = some c) → isDigit c = false := by
  intro c hc
  simp only [List.head?_cons, Option.some.injEq] at hc
  subst hc
  exact h

theorem decode_int_real_encode (i : Int) (h1 : -9223372036854775808 ≤ i)
    (h2 : i < 9223372036854775808) (t : List Char) :
    decode_int_real ('i' :: (intRepr i ++ 'e' :: t)) = .ok (i, t) := by
  by_cases hneg : i < 0
  · rw [show intRepr i = '-' :: natRepr (-i).toNat by simp [intRepr, hneg]]
    simp only [List.cons_append]
    simp only [decode_int_real, if_pos rfl]
    unfold intTail
    rw [intDigits_natRepr ((-i).toNat) ('e' :: t)
      (head_isDigit_false_of_cons (by decide) _)]
    simp only [if_pos rfl, Bool.false_eq_true, if_false]
    rw [wrap64_neg]
    rw [show (((-i).toNat : Int)) = -i from Int.toNat_of_nonneg (by omega)]
    rw [neg_neg, wrap64_eq_self h1 h2]
    simp only [if_true]
  · have hpos : ¬ i < 0 := hneg
    rw [show intRepr i = natRepr i.toNat by simp [intRepr, hpos]]
    obtain ⟨c0, ds, hds⟩ := List.exists_cons_of_ne_nil (natRepr_ne_nil i.toNat)
    have hc0 : isDigit c0 = true := by
      apply natRepr_digits (n := i.toNat)
      rw [hds]
      simp
    have hc0m : c0 ≠ '-' := by
      intro hcm
      subst hcm
      exact absurd hc0 (by decide)
    rw [hds]
    simp only [List.cons_append, decode_int_real, if_neg hc0m]
    rw [show c0 :: (ds ++ 'e' :: t) = natRepr i.toNat ++ 'e' :: t by
      rw [hds]; simp]
    unfold intTail
    rw [intDigits_natRepr i.toNat ('e' :: t)
      (head_isDigit_false_of_cons (by decide) _)]
    simp only [if_pos rfl]
    rw [Int.toNat_of_nonneg (not_lt.mp hpos), wrap64_eq_self h1 h2]
    simp only [if_true]

theorem decodeStr_encode (s : List Char) (hs : s.length < 9223372036854775808)
    (t : List Char) : decodeStr (encodeStr s ++ t) = .ok (s, t) := by
  have hre : encodeStr s ++ t = natRepr s.length ++ (':' :: (s ++ t)) := by
    simp [encodeStr]
  rw [hre]
  unfold decodeStr
  rw [lenDigits_natRepr s.length (by omega) (':' :: (s ++ t))
    (head_isDigit_false_of_cons (by decide) _)]
  simp only [if_pos rfl]
  unfold strReaderFwd
  have hck : ¬ ((s ++ t).length : Int) < sizetAsPtrdiff s.length := by
    have := wrap64_natCast_le s.length
    unfold sizetAsPtrdiff
    simp only [List.length_append]
    push_cast
    omega
  rw [if_neg hck]
  rw [if_neg (by omega : ¬ 9223372036854775807 < s.length)]
  rw [List.take_left, List.drop_left]
  simp only [if_true]

theorem encodeAny_head : ∀ (v : Bany) (b : List Char), encodeAny v = .ok b →
    ∃ c r, b = c :: r ∧ c ≠ 'e' := by
  intro v b h
  cases v with
  | none => simp [encodeAny] at h
  | int i =>
    simp only [encodeAny, Except.ok.injEq] at h
    exact ⟨'i', intRepr i ++ ['e'], by rw [← h]; rfl, by decide⟩
  | str s =>
    simp only [encodeAny, Except.ok.injEq] at h
    obtain ⟨c0, ds, hds⟩ := List.exists_cons_of_ne_nil (natRepr_ne_nil s.length)
    have hc0 : isDigit c0 = true := by
      apply natRepr_digits (n := s.length)
      rw [hds]
      simp
    refine ⟨c0, ds ++ ':' :: s, ?_, (isDigit_ne hc0).2.2.2.1⟩
    rw [← h]
    show encodeStr s = _
    unfold encodeStr
    rw [hds]
    simp
  | list L =>
    simp only [encodeAny] at h
    cases hE : encodeItems L with
    | error e =>
      rw [hE] at h
      simp at h
    | ok bb =>
      rw [hE] at h
      simp only [Except.ok.injEq] at h
      exact ⟨'l', bb ++ ['e'], h.symm, by decide⟩
  | dict D =>
    simp only [encodeAny] at h
    cases hE : encodePairs D with
    | error e =>
      rw [hE] at h
      simp at h
    | ok bb =>
      rw [hE] at h
      simp only [Except.ok.injEq] at h
      exact ⟨'d', bb ++ ['e'], h.symm, by decide⟩

/-! ### The round trip: decoding an encoded canonical value -/

theorem bsize_pos (v : Bany) : 1 ≤ bsize v := by
  cases v <;> simp [bsize]

theorem wfList_cons {v : Bany} {L : List Bany}
    (h : wfList (v :: L) = true) : wfB v = true ∧ wfList L = true := by
  simpa only [wfList, Bool.and_eq_true] using h

theorem wfDict_cons {k : List Char} {v : Bany} {D : List (List Char × Bany)}
    (h : wfDict ((k, v) :: D) = true) :
    k.length < 9223372036854775808 ∧ wfB v = true ∧ wfDict D = true := by
  simp only [wfDict, Bool.and_eq_true, decide_eq_true_eq] at h
  exact ⟨h.1.1, h.1.2, h.2⟩

theorem rtList (n : Nat)
    (IH : ∀ v, bsize v ≤ n → ∀ (b t : List Char) (fuel : Nat),
      wfB v = true → encodeAny v = .ok b → 2 * (b ++ t).length + 2 ≤ fuel →
      decodeDataF fuel (b ++ t) = .ok (v, t)) :
    ∀ (L : List Bany), lsize L ≤ n → ∀ (b t : List Char) (fuel : Nat),
    wfList L = true → encodeItems L = .ok b →
    2 * (b ++ 'e' :: t).length + 3 ≤ fuel →
    decodeListF fuel (b ++ 'e' :: t) = .ok (L, t) := by
  intro L
  induction L with
  | nil =>
    intro _ b t fuel _ henc hfuel
    simp only [encodeItems, Except.ok.injEq] at henc
    subst henc
    rw [List.nil_append]
    cases fuel with
    | zero => omega
    | succ f => simp [decodeListF]
  | cons v L' ih =>
    intro hsz b t fuel hwf henc hfuel
    simp only [encodeItems] at henc
    cases hv : encodeAny v with
    | error e =>
      rw [hv] at henc
      simp at henc
    | ok bv =>
      rw [hv] at henc
      cases hL : encodeItems L' with
      | error e =>
        rw [hL] at henc
        simp at henc
      | ok bs =>
        rw [hL] at henc
        simp only [Except.ok.injEq] at henc
        subst henc
        obtain ⟨hwv, hwL⟩ := wfList_cons hwf
        obtain ⟨c0, bv', hbv, hc0e⟩ := encodeAny_head v bv hv
        have hblen : bv.length = bv'.length + 1 := by rw [hbv]; rfl
        simp only [List.length_append, List.length_cons] at hfuel
        rw [List.append_assoc, hbv, List.cons_append]
        cases fuel with
        | zero => omega
        | succ f =>
          simp only [lsize] at hsz
          have hD := IH v (by omega) bv (bs ++ 'e' :: t) f hwv hv
            (by simp only [List.length_append, List.length_cons]; omega)
          have hL2 := ih (by omega) bs t f hwL hL
            (by simp only [List.length_append, List.length_cons]; omega)
          simp only [decodeListF]
          rw [if_neg hc0e]
          rw [show c0 :: (bv' ++ (bs ++ 'e' :: t)) = bv ++ (bs ++ 'e' :: t) by
            rw [hbv]; simp]
          rw [hD]
          simp [hL2]

theorem rtDict (n : Nat)
    (IH : ∀ v, bsize v ≤ n → ∀ (b t : List Char) (fuel : Nat),
      wfB v = true → encodeAny v = .ok b → 2 * (b ++ t).length + 2 ≤ fuel →
      decodeDataF fuel (b ++ t) = .ok (v, t)) :
    ∀ (D : List (List Char × Bany)), dsize D ≤ n →
    ∀ (acc : List (List Char × Bany)) (b t : List Char) (fuel : Nat),
    sortedKeys (acc ++ D) = true → wfDict D = true → encodePairs D = .ok b →
    2 * (b ++ 'e' :: t).length + 3 ≤ fuel →
    decodeDictF fuel acc (b ++ 'e' :: t) = .ok (acc ++ D, t) := by
  intro D
  induction D with
  | nil =>
    intro _ acc b t fuel _ _ henc hfuel
    simp only [encodePairs, Except.ok.injEq] at henc
    subst henc
    rw [List.nil_append, List.append_nil]
    cases fuel with
    | zero => omega
    | succ f => simp [decodeDictF]
  | cons p D' ih =>
    intro hsz acc b t fuel hsort hwf henc hfuel
    obtain ⟨k1, v1⟩ := p
    simp only [encodePairs] at henc
    cases hv : encodeAny v1 with
    | error e =>
      rw [hv] at henc
      simp at henc
    | ok bv =>
      rw [hv] at henc
      cases hP : encodePairs D' with
      | error e =>
        rw [hP] at henc
        simp at henc
      | ok bs =>
        rw [hP] at henc
        simp only [Except.ok.injEq] at henc
        subst henc
        obtain ⟨hklen, hwv, hwD⟩ := wfDict_cons hwf
        obtain ⟨c0, ds, hds⟩ :=
          List.exists_cons_of_ne_nil (natRepr_ne_nil k1.length)
        have hc0 : isDigit c0 = true := by
          apply natRepr_digits (n := k1.length)
          rw [hds]
          simp
        have hc0e : c0 ≠ 'e' := (isDigit_ne hc0).2.2.2.1
        have hinput : (encodeStr k1 ++ (bv ++ bs)) ++ 'e' :: t
            = c0 :: (ds ++ ':' :: (k1 ++ (bv ++ (bs ++ 'e' :: t)))) := by
          simp [encodeStr, hds]
        rw [hinput]
        obtain ⟨cb, bv', hbv, _⟩ := encodeAny_head v1 bv hv
        have hblen : bv.length = bv'.length + 1 := by rw [hbv]; rfl
        have hfatoms : 2 * (ds.length + 1 + 1 + k1.length + bv.length
            + bs.length + 1 + t.length) + 3 ≤ fuel := by
          have hlen : ((encodeStr k1 ++ (bv ++ bs)) ++ 'e' :: t).length
              = ds.length + 1 + 1 + k1.length + bv.length + bs.length + 1
                + t.length := by
            simp [encodeStr, hds, List.length_append]
            omega
          rw [hlen] at hfuel
          exact hfuel
        cases fuel with
        | zero => omega
        | succ f =>
          simp only [dsize] at hsz
          have hStr := decodeStr_encode k1 hklen (bv ++ (bs ++ 'e' :: t))
          have hD := IH v1 (by omega) bv (bs ++ 'e' :: t) f hwv hv
            (by simp only [List.length_append, List.length_cons]; omega)
          have hemp : emplace k1 v1 acc = some (acc ++ [(k1, v1)]) :=
            emplace_append acc k1 v1
              (fun p hp => sortedKeys_append_lt acc (k1, v1) D' hsort p hp)
          have hrec := ih (by omega) (acc ++ [(k1, v1)]) bs t f
            (by rw [List.append_assoc]; simpa using hsort) hwD hP
            (by simp only [List.length_append, List.length_cons]; omega)
          simp only [decodeDictF]
          rw [if_neg hc0e, if_pos hc0]
          rw [show c0 :: (ds ++ ':' :: (k1 ++ (bv ++ (bs ++ 'e' :: t))))
              = encodeStr k1 ++ (bv ++ (bs ++ 'e' :: t)) by
            simp [encodeStr, hds]]
          rw [hStr]
          simp [hD, hemp, hrec, List.append_assoc]

theorem rtMain : ∀ (n : Nat) (v : Bany), bsize v ≤ n →
    ∀ (b t : List Char) (fuel : Nat), wfB v = true → encodeAny v = .ok b →
    2 * (b ++ t).length + 2 ≤ fuel → decodeDataF fuel (b ++ t) = .ok (v, t) := by
  intro n
  induction n with
  | zero =>
    intro v hv
    have := bsize_pos v
    omega
  | succ m ih =>
    intro v hv b t fuel hwf henc hfuel
    cases v with
    | none => simp [wfB] at hwf
    | int i =>
      simp only [encodeAny, Except.ok.injEq] at henc
      subst henc
      simp only [wfB, Bool.and_eq_true, decide_eq_true_eq] at hwf
      rw [show encodeInt i ++ t = 'i' :: (intRepr i ++ 'e' :: t) by
        simp [encodeInt]]
      cases fuel with
      | zero =>
        simp only [List.length_append] at hfuel
        omega
      | succ f =>
        have hInt := decode_int_real_encode i hwf.1 hwf.2 t
        simp [decodeDataF, hInt]
    | str s =>
      simp only [encodeAny, Except.ok.injEq] at henc
      subst henc
      simp only [wfB, decide_eq_true_eq] at hwf
      obtain ⟨c0, ds, hds⟩ :=
        List.exists_cons_of_ne_nil (natRepr_ne_nil s.length)
      have hc0 : isDigit c0 = true := by
        apply natRepr_digits (n := s.length)
        rw [hds]
        simp
      obtain ⟨hni, hnl, hnd, hne, hnc⟩ := isDigit_ne hc0
      rw [show encodeStr s ++ t = c0 :: (ds ++ ':' :: (s ++ t)) by
        simp [encodeStr, hds]]
      cases fuel with
      | zero =>
        simp only [List.length_append] at hfuel
        omega
      | succ f =>
        have hStr := decodeStr_encode s hwf t
        simp only [decodeDataF]
        rw [if_neg hni, if_neg hnl, if_neg hnd, if_pos hc0]
        rw [show c0 :: (ds ++ ':' :: (s ++ t)) = encodeStr s ++ t by
          simp [encodeStr, hds]]
        rw [hStr]
    | list L =>
      simp only [encodeAny] at henc
      cases hE : encodeItems L with
      | error e =>
        rw [hE] at henc
        simp at henc
      | ok bi =>
        rw [hE] at henc
        simp only [Except.ok.injEq] at henc
        subst henc
        have hwL : wfList L = true := by simpa [wfB] using hwf
        have hszL : lsize L ≤ m := by
          simp only [bsize] at hv
          omega
        rw [show ('l' :: (bi ++ ['e'])) ++ t = 'l' :: (bi ++ 'e' :: t) by simp]
        cases fuel with
        | zero =>
          simp only [List.length_append, List.length_cons] at hfuel
          omega
        | succ f =>
          have hfl : 2 * (bi ++ 'e' :: t).length + 3 ≤ f := by
            simp only [List.length_append, List.length_cons] at hfuel ⊢
            omega
          have hLrt := rtList m ih L hszL bi t f hwL hE hfl
          simp [decodeDataF, hLrt]
    | dict D =>
      simp only [encodeAny] at henc
      cases hE : encodePairs D with
      | error e =>
        rw [hE] at henc
        simp at henc
      | ok bi =>
        rw [hE] at henc
        simp only [Except.ok.injEq] at henc
        subst henc
        simp only [wfB, Bool.and_eq_true] at hwf
        have hszD : dsize D ≤ m := by
          simp only [bsize] at hv
          omega
        rw [show ('d' :: (bi ++ ['e'])) ++ t = 'd' :: (bi ++ 'e' :: t) by simp]
        cases fuel with
        | zero =>
          simp only [List.length_append, List.length_cons] at hfuel
          omega
        | succ f =>
          have hfl : 2 * (bi ++ 'e' :: t).length + 3 ≤ f := by
            simp only [List.length_append, List.length_cons] at hfuel ⊢
            omega
          have hDrt := rtDict m ih D hszD [] bi t f
            (by simpa using hwf.1) hwf.2 hE hfl
          simp [decodeDataF, hDrt]

/-! ### Claim theorems -/

/-- Claim C1 (code bug): an integer literal whose magnitude exceeds the
signed 64-bit range does NOT fail with an overflow error — the accumulation
loop (marked `// TODO: handle overflow` in the source) wraps around, and
decoding `"i9223372036854775808e"` (the literal `2^63`) succeeds, returning
the wrapped value `-2^63`.  No overflow error exists anywhere in the code's
error taxonomy. -/
theorem overflow_literal_wraps :
    decode "i9223372036854775808e".data
      = .ok (.int (-9223372036854775808), []) := by
  rfl

/-- Claim C2, counterexample: the claim says `"ie"` (no digits before the
terminator) must fail, but decoding it succeeds and returns the integer 0. -/
theorem malformed_int_cex : decode "ie".data = .ok (.int 0, []) := by
  rfl

/-- Claim C2, amended: only `"i e"` (a byte that is neither a digit nor the
terminator) is rejected, with an expected-terminator error; the digitless
forms `"ie"` and `"i-e"` decode to 0, the leading-zero form `"i03e"` decodes
to 3, and `"i-0e"` decodes to 0 — none of them fails. -/
theorem malformed_int_behaviour :
    decode "i e".data = .error .expectedE
    ∧ decode "ie".data = .ok (.int 0, [])
    ∧ decode "i-e".data = .ok (.int 0, [])
    ∧ decode "i03e".data = .ok (.int 3, [])
    ∧ decode "i-0e".data = .ok (.int 0, []) := by
  exact ⟨rfl, rfl, rfl, rfl, rfl⟩

/-- Claim C3: a repeated dict key is a terminal error.  In any map state the
decoder can reach (a sorted `std::map`), `emplace` of an already-present key
is refused, which `decode_dict` turns into the dedicated duplicate-key error
carrying the offending key — as the concrete decode of `"d1:a1:x1:a1:ye"`
shows; no dict value is returned. -/
theorem duplicate_key_aborts :
    (∀ (d : List (List Char × Bany)), sortedKeys d = true →
      ∀ (k : List Char), k ∈ d.map Prod.fst → ∀ (v : Bany),
        emplace k v d = none)
    ∧ decode "d1:a1:x1:a1:ye".data = .error (.duplicateKey "a".data) := by
  exact ⟨emplace_dup, rfl⟩

/-- Claim C3, witness. -/
theorem duplicate_key_aborts_witness :
    emplace "a".data (.int 2) [("a".data, .int 1)] = none :=
  duplicate_key_aborts.1 [("a".data, .int 1)] rfl "a".data (by simp) (.int 2)

/-- Claim C4: for every canonically-formed value (no empty `any`, dict keys
strictly ascending, integers within the 64-bit range, string lengths within
`size_t`), decoding the encoded bytes returns the value itself with the
whole input consumed: `decode (encode v) = v`. -/
theorem roundtrip_decode_encode : ∀ (v : Bany) (b : List Char),
    wfB v = true → encodeAny v = .ok b → decode b = .ok (v, []) := by
  intro v b hwf henc
  have h := rtMain (bsize v) v le_rfl b [] (2 * (b ++ []).length + 2) hwf henc
    le_rfl
  rw [List.append_nil] at h
  exact h

/-- Claim C4, witness: the dict `{"cow": "moo", "spam": "eggs"}` encodes to
`"d3:cow3:moo4:spam4:eggse"` and decodes back to itself. -/
theorem roundtrip_decode_encode_witness :
    wfB (.dict [("cow".data, .str "moo".data),
      ("spam".data, .str "eggs".data)]) = true
    ∧ encodeAny (.dict [("cow".data, .str "moo".data),
        ("spam".data, .str "eggs".data)])
      = .ok "d3:cow3:moo4:spam4:eggse".data
    ∧ decode "d3:cow3:moo4:spam4:eggse".data
      = .ok (.dict [("cow".data, .str "moo".data),
          ("spam".data, .str "eggs".data)], []) := by
  have hw : wfB (.dict [("cow".data, .str "moo".data),
      ("spam".data, .str "eggs".data)]) = true := by
    simp only [wfB, wfDict, sortedKeys]
    decide
  have he : encodeAny (.dict [("cow".data, .str "moo".data),
      ("spam".data, .str "eggs".data)]) = .ok "d3:cow3:moo4:spam4:eggse".data := by
    simp only [encodeAny, encodePairs]
    rfl
  exact ⟨hw, he, roundtrip_decode_encode _ _ hw he⟩

/-- Claim C5: decoding the empty input returns the distinguished empty
`any` (no error), while any other unrecognized first byte — not `i`, `l`,
`d`, or a digit — is a grammar error ("unexpected type"). -/
theorem empty_input_empty_result :
    decode [] = .ok (.none, [])
    ∧ (∀ (c : Char) (rest : List Char), c ≠ 'i' → c ≠ 'l' → c ≠ 'd' →
        isDigit c = false → decode (c :: rest) = .error .unexpectedType) := by
  constructor
  · rfl
  · intro c rest h1 h2 h3 h4
    show decodeDataF (2 * (c :: rest).length + 2) (c :: rest) = _
    simp only [List.length_cons]
    rw [show 2 * (rest.length + 1) + 2 = (2 * rest.length + 3) + 1 by ring]
    simp only [decodeDataF]
    rw [if_neg h1, if_neg h2, if_neg h3]
    simp [h4]

/-- Claim C5, witness. -/
theorem empty_input_empty_result_witness :
    decode ['x'] = .error .unexpectedType :=
  empty_input_empty_result.2 'x' [] (by decide) (by decide) (by decide)
    (by decide)

/-- Claim C6, counterexample: a declared length of `2^63` exceeds the two
remaining bytes, yet decoding does not fail with the end-of-input error —
the `size_t → ptrdiff_t` cast makes the up-front bound check compare
against a negative number, the check passes, and the `std::string`
allocation then throws `std::length_error`, since `2^63` exceeds
`max_size()` on every 64-bit implementation: a defined failure, but not
the claimed end-of-input error. -/
theorem str_len_cast_cex :
    decode "9223372036854775808:ab".data = .error .lengthError
    ∧ Err.lengthError ≠ Err.unexpectedEnd := by
  exact ⟨rfl, by decide⟩

/-- Claim C6, amended: when a string's declared length exceeds the
remaining bytes, the random-access readers (copy and view) fail up front
with the end-of-input error provided the length is below `2^63`; a length
`≥ 2^63` defeats the signed-cast check, after which the copy reader's
string allocation throws `std::length_error` and the view reader, which
allocates nothing, advances out of bounds.  The sequential reader
allocates first — any declared length above the implementation's
`max_size()` throws `std::length_error` before a byte is read — and
otherwise checks exhaustion on every byte read, failing with the
end-of-input error whenever the input runs out; concretely `"5:ab"` fails
with the end-of-input error. -/
theorem str_len_exceeds_input :
    (∀ (l : List Char) (len : Nat), len < 9223372036854775808 →
      l.length < len → strReaderFwd l len = .error .unexpectedEnd)
    ∧ (∀ (l : List Char) (len : Nat), len < 9223372036854775808 →
      l.length < len → strReaderView l len = .error .unexpectedEnd)
    ∧ (∀ (maxSize : Nat) (l : List Char) (len : Nat), len ≤ maxSize →
      l.length < len → strReaderSeq maxSize l len = .error .unexpectedEnd)
    ∧ (∀ (maxSize : Nat) (l : List Char) (len : Nat), maxSize < len →
      strReaderSeq maxSize l len = .error .lengthError)
    ∧ decode "5:ab".data = .error .unexpectedEnd := by
  refine ⟨?_, ?_, ?_, ?_, rfl⟩
  · intro l len h1 h2
    unfold strReaderFwd sizetAsPtrdiff
    rw [wrap64_eq_self (by omega) (by exact_mod_cast h1)]
    rw [if_pos (by exact_mod_cast h2)]
  · intro l len h1 h2
    unfold strReaderView sizetAsPtrdiff
    rw [wrap64_eq_self (by omega) (by exact_mod_cast h1)]
    rw [if_pos (by exact_mod_cast h2)]
  · intro ms l len h1 h2
    unfold strReaderSeq
    rw [if_neg (by omega)]
    exact strReaderSeqAux_short l len [] h2
  · intro ms l len h
    unfold strReaderSeq
    rw [if_pos h]

/-- Claim C6, witness. -/
theorem str_len_exceeds_input_witness :
    strReaderFwd "ab".data 5 = .error .unexpectedEnd
    ∧ strReaderSeq 4611686018427387903 "ab".data 5 = .error .unexpectedEnd
    ∧ strReaderSeq 4 "ab".data 5 = .error .lengthError :=
  ⟨str_len_exceeds_input.1 "ab".data 5 (by norm_num) (by decide),
   str_len_exceeds_input.2.2.1 4611686018427387903 "ab".data 5 (by norm_num)
     (by decide),
   str_len_exceeds_input.2.2.2.1 4 "ab".data 5 (by norm_num)⟩

/-- Claim C7: encoding emits exactly the grammar tokens.  An integer is
`'i'`, the printed decimal, `'e'`; the printed decimal consists of digit
bytes that denote exactly the value, never starts with `'0'` unless the
value is zero, carries `'-'` exactly for negatives, and `"-0"` is
impossible; a byte string is its decimal length, `':'`, the bytes; and a
map built by any sequence of insertions has its pairs (hence its emitted
keys) in ascending byte-lexicographic order. -/
theorem encoder_emits_grammar_tokens :
    (∀ i : Int, encodeInt i = 'i' :: (intRepr i ++ ['e']))
    ∧ (∀ s : List Char, encodeStr s = natRepr s.length ++ ':' :: s)
    ∧ (∀ n : Nat, (∀ c ∈ natRepr n, isDigit c = true)
        ∧ natVal (natRepr n) = n
        ∧ ((natRepr n).head? = some '0' → n = 0))
    ∧ (∀ i : Int, 0 ≤ i → intRepr i = natRepr i.toNat)
    ∧ (∀ i : Int, i < 0 →
        intRepr i = '-' :: natRepr (-i).toNat ∧ natRepr (-i).toNat ≠ ['0'])
    ∧ (∀ l : List (List Char × Bany), sortedKeys (buildMap l) = true) := by
  refine ⟨fun i => rfl, fun s => rfl, ?_, ?_, ?_, buildMap_sorted⟩
  · intro n
    exact ⟨natRepr_digits, natVal_natRepr n, natRepr_head_zero⟩
  · intro i h
    simp [intRepr, not_lt.mpr h]
  · intro i h
    refine ⟨by simp [intRepr, h], ?_⟩
    intro hcontra
    have h1 : natVal (natRepr (-i).toNat) = (-i).toNat := natVal_natRepr _
    rw [hcontra] at h1
    rw [show natVal ['0'] = 0 from rfl] at h1
    omega

/-- Claim C7, witness. -/
theorem encoder_emits_grammar_tokens_witness :
    intRepr (-13) = '-' :: natRepr 13 ∧ intRepr 42 = natRepr 42 := by
  have h5 := encoder_emits_grammar_tokens.2.2.2.2.1 (-13) (by norm_num)
  have h4 := encoder_emits_grammar_tokens.2.2.2.1 42 (by norm_num)
  exact ⟨h5.1, h4⟩

/-- Claim C8: list decoding preserves input order and fails on premature
exhaustion before the terminator; `"l4:spam4:eggse"` decodes to the list
`["spam", "eggs"]` in that order, `"4:spam"` to the byte string `"spam"`,
`"i42e"` to the integer 42, and the unterminated `"l4:spam4:eggs"` fails
with the end-of-input error. -/
theorem list_decode_order :
    decode "l4:spam4:eggse".data
      = .ok (.list [.str "spam".data, .str "eggs".data], [])
    ∧ decode "4:spam".data = .ok (.str "spam".data, [])
    ∧ decode "i42e".data = .ok (.int 42, [])
    ∧ decode "l4:spam4:eggs".data = .error .unexpectedEnd := by
  exact ⟨rfl, rfl, rfl, rfl⟩

/-- Claim C9 (code bug): on the input `"i"` the decoder does NOT signal
end-of-input — after consuming the `'i'` it dereferences the end iterator
(`if(*begin == '-')` with `begin == end`), an out-of-bounds read
(`Err.ub`); on `"i-"` the exhaustion is caught and the end-of-input error
is raised. -/
theorem int_reads_past_end :
    decode "i".data = .error .ub
    ∧ decode "i-".data = .error .unexpectedEnd := by
  exact ⟨rfl, rfl⟩

/-- Claim C10: decoding consumes exactly one complete value.  For every
canonically-formed value and arbitrary trailing bytes, decoding the
encoding followed by the trailing bytes succeeds, returns the value, and
leaves the position marker exactly at the first trailing byte. -/
theorem decode_consumes_one_value : ∀ (v : Bany) (b t : List Char),
    wfB v = true → encodeAny v = .ok b → decode (b ++ t) = .ok (v, t) := by
  intro v b t hwf henc
  exact rtMain (bsize v) v le_rfl b t (2 * (b ++ t).length + 2) hwf henc le_rfl

/-- Claim C10, witness: `"li42ee"` followed by the garbage `"XYZ"` decodes
to the list `[42]` with the position left at `"XYZ"`. -/
theorem decode_consumes_one_value_witness :
    wfB (.list [.int 42]) = true
    ∧ encodeAny (.list [.int 42]) = .ok "li42ee".data
    ∧ decode ("li42ee".data ++ "XYZ".data)
      = .ok (.list [.int 42], "XYZ".data) := by
  have hw : wfB (.list [.int 42]) = true := by
    simp only [wfB, wfList]
    decide
  have he : encodeAny (.list [.int 42]) = .ok "li42ee".data := by
    simp only [encodeAny, encodeItems]
    rfl
  exact ⟨hw, he, decode_consumes_one_value _ _ _ hw he⟩

end BencodeHpp
